import Mathlib

/-!
# Verification of the RAG retrieval / incremental-indexing core

Shallow embedding of the retrieval engine of the `rag-augmented-node-api`
repository, together with proofs of the specified properties.

Embedding conventions:
* JavaScript numbers that carry scores and similarities are modelled as `ℚ`
  (all arithmetic the claims mention is exact at the values involved).
* JavaScript `Map` objects (insertion-ordered) are modelled as association
  lists `List (String × _)`; `map.set` on an existing key updates the entry
  in place, otherwise it appends, exactly as in V8.
* `Array.prototype.sort` with comparator `(a, b) => b.score - a.score` is a
  stable descending sort; it is modelled by the stable insertion sort
  `sortByScoreDesc` below.
* Asynchronous network calls (LanceDB searches, OpenAI embedding/generation)
  are external collaborators per spec §6; they enter the model as function
  parameters, and fallible stages are `Except JsError _` values.
-/

namespace RagNode

/-- Embedding vectors (`number[]` in the source, unit-normalized). -/
abbrev Vec := List ℚ

/-- `dot` from `src/src/lib.js`:
`let s = 0; for (let i = 0; i < a.length; i++) s += a[i] * b[i]; return s;`
(callers always pass vectors of equal length). -/
def dot (a b : Vec) : ℚ := (List.zipWith (· * ·) a b).sum

/-- A stored chunk record as returned by the store's searches
(`{ id, source, chunkIndex, content, embeddingUnit }` in
`src/src/vectorStore.js` `vectorSearch`/`ftsSearch` row mapping). -/
structure Item where
  id : String
  source : String
  chunkIndex : Nat
  content : String
  embeddingUnit : Vec
deriving DecidableEq

/-- A search hit `{ item, score }`.  The `_rankSource` tag ("vector"/"fts")
attached by the low-level searches is never read by fusion, merging,
filtering or selection, so it is omitted from the model. -/
structure Hit where
  item : Item
  score : ℚ
deriving DecidableEq

/-! ## Stable descending sort (model of `[...].sort((a, b) => b.score - a.score)`) -/

/-- Insert `x` into a descending-sorted list, after every strictly greater
element and before equal ones (the stability JS guarantees). -/
def insertDesc (score : α → ℚ) (x : α) : List α → List α
  | [] => [x]
  | y :: ys => if score y > score x then y :: insertDesc score x ys else x :: y :: ys

/-- Stable descending insertion sort by a score projection. -/
def sortByScoreDesc (score : α → ℚ) : List α → List α
  | [] => []
  | x :: xs => insertDesc score x (sortByScoreDesc score xs)

/-- "Sorted best-first": every earlier element scores at least as much as
every later one. -/
def ScoreSortedDesc (score : α → ℚ) (l : List α) : Prop :=
  l.Pairwise (fun a b => score a ≥ score b)

theorem mem_insertDesc (score : α → ℚ) (x : α) (l : List α) (a : α) :
    a ∈ insertDesc score x l ↔ a = x ∨ a ∈ l := by
  induction l with
  | nil => simp [insertDesc]
  | cons y ys ih =>
    by_cases h : score y > score x
    · simp only [insertDesc, if_pos h, List.mem_cons, ih]
      tauto
    · simp only [insertDesc, if_neg h, List.mem_cons]

theorem mem_sortByScoreDesc (score : α → ℚ) (l : List α) (a : α) :
    a ∈ sortByScoreDesc score l ↔ a ∈ l := by
  induction l with
  | nil => simp [sortByScoreDesc]
  | cons x xs ih =>
    simp only [sortByScoreDesc, mem_insertDesc, List.mem_cons, ih]

theorem sorted_insertDesc (score : α → ℚ) (x : α) (l : List α)
    (hl : ScoreSortedDesc score l) : ScoreSortedDesc score (insertDesc score x l) := by
  induction l with
  | nil => simp [insertDesc, ScoreSortedDesc]
  | cons y ys ih =>
    obtain ⟨hy, hys⟩ := List.pairwise_cons.mp hl
    by_cases h : score y > score x
    · simp only [insertDesc, if_pos h]
      refine List.Pairwise.cons ?_ (ih hys)
      intro b hb
      rcases (mem_insertDesc score x ys b).mp hb with rfl | hb
      · exact le_of_lt h
      · exact hy b hb
    · simp only [insertDesc, if_neg h]
      push_neg at h
      refine List.Pairwise.cons ?_ (List.Pairwise.cons hy hys)
      intro b hb
      rcases List.mem_cons.mp hb with rfl | hb
      · exact h
      · exact le_trans (hy b hb) h

theorem sorted_sortByScoreDesc (score : α → ℚ) (l : List α) :
    ScoreSortedDesc score (sortByScoreDesc score l) := by
  induction l with
  | nil => exact List.Pairwise.nil
  | cons x xs ih => exact sorted_insertDesc score x _ ih

theorem insertDesc_cons_of_ge (score : α → ℚ) (x y : α) (ys : List α)
    (h : score x ≥ score y) : insertDesc score x (y :: ys) = x :: y :: ys := by
  simp [insertDesc, not_lt.mpr h]

/-- Sorting an already best-first list is the identity (so the re-sort inside
`rrfFuse` leaves pre-ranked inputs untouched). -/
theorem sortByScoreDesc_eq_self (score : α → ℚ) (l : List α)
    (hl : ScoreSortedDesc score l) : sortByScoreDesc score l = l := by
  induction l with
  | nil => rfl
  | cons x xs ih =>
    obtain ⟨hx, hxs⟩ := List.pairwise_cons.mp hl
    rw [sortByScoreDesc, ih hxs]
    cases xs with
    | nil => rfl
    | cons y ys => exact insertDesc_cons_of_ge score x y ys (hx y (List.mem_cons_self y ys))

/-! ## ChunkIdentity and Manifest (`src/unnamed/part_006`, the record manager) -/

/-- `makeChunkId({ source, contentHash })` returns
`` `${source}:${contentHash.slice(0, 20)}` ``. -/
def makeChunkId (source contentHash : String) : String :=
  source ++ ":" ++ (contentHash.take 20)

/-- `makeCitationId({ source, chunkIndex })` returns
`` `${source}#${chunkIndex}` ``. -/
def makeCitationId (source : String) (chunkIndex : Nat) : String :=
  source ++ "#" ++ toString chunkIndex

/-- `diffManifests(previousIdsSet, currentIdsSet)`.  The two JS `Set`s are
modelled by their (insertion-ordered) element lists; `set.has` is `contains`.
The two `for ... of` loops push exactly the elements that the respective
membership test rejects, in iteration order, i.e. a `filter`. -/
def diffManifests (previousIds currentIds : List String) : List String × List String :=
  (currentIds.filter (fun id => !(previousIds.contains id)),
   previousIds.filter (fun id => !(currentIds.contains id)))

/-- Modelled from the spec: `deleteByIds` is invoked by the incremental
indexer (`src/src/indexer.js`, step 4) but no implementation of it exists
under `src/` — the `LanceVectorStore` class in `src/src/vectorStore.js` has
no such method.  Spec §4.3: "`deleteByIds(ids)`: removes matching records;
deleting a non-existent id is a no-op, not an error."  The store's record
collection is modelled as the list of its rows. -/
def deleteByIds (records : List Item) (ids : List String) : List Item :=
  records.filter (fun r => !(ids.contains r.id))

/-! ## Cache keys (`src/unnamed/part_002`, `hashKey` and `embedTextsCached`) -/

/-- One round of the `hashKey` loop:
`h ^= s.charCodeAt(i); h = Math.imul(h, 16777619);`
`Math.imul` is a 32-bit wrapping multiply and `^` operates on 32-bit words,
so on the unsigned reading the state is exactly `Nat` arithmetic mod `2^32`. -/
def hashStep (h : Nat) (c : Char) : Nat :=
  ((h ^^^ c.toNat) * 16777619) % 4294967296

/-- The 32-bit FNV-1a state computed by `hashKey` before hex formatting
(`(h >>> 0)` reinterprets the signed word as this unsigned value). -/
def hashKeyNat (s : String) : Nat :=
  s.toList.foldl hashStep 2166136261

/-- `hashKey(s)`: FNV-1a over the UTF-16 code units, rendered as lowercase
hex by `(h >>> 0).toString(16)`.  (`Nat.toDigits 16` produces the same
lowercase hex digits.) -/
def hashKey (s : String) : String :=
  (Nat.toDigits 16 (hashKeyNat s)).asString

/-- The embedding-cache key `` `emb:${EMBED_MODEL}:${hashKey(t)}` `` built in
`embedTextsCached` (parametrised over the configured model name). -/
def embCacheKey (model t : String) : String :=
  "emb:" ++ model ++ ":" ++ hashKey t

/-- JS object property assignment `obj[k] = v` on an assoc-list model:
an existing key keeps its position and gets the new value, a new key is
appended. -/
def objSet (k : String) (v : Vec) (cache : List (String × Vec)) : List (String × Vec) :=
  if (cache.lookup k).isSome
  then cache.map (fun p => if p.1 == k then (p.1, v) else p)
  else cache ++ [(k, v)]

/-- `embedTextsCached(texts, embedCache, log)`: computes the cache key per
text, batches the cache misses through one `embedTexts` call, stores the
returned vectors under the miss keys, and answers every text from the cache.
The cache object is an assoc list (JS object property order);
`embedFn` is the external `embedTexts` collaborator. -/
def embedTextsCached (model : String) (texts : List String)
    (cache : List (String × Vec)) (embedFn : List String → List Vec) :
    List (Option Vec) × List (String × Vec) :=
  let keys := texts.map (embCacheKey model)
  let missKeys := keys.filter (fun k => (cache.lookup k).isNone)
  let missTexts := texts.filter (fun t => (cache.lookup (embCacheKey model t)).isNone)
  let cache1 :=
    if missKeys.isEmpty then cache
    else (missKeys.zip (embedFn missTexts)).foldl (fun c p => objSet p.1 p.2 c) cache
  (keys.map (fun k => cache1.lookup k), cache1)

theorem lt_hashStep (h : Nat) (c : Char) : hashStep h c < 4294967296 :=
  Nat.mod_lt _ (by norm_num)

theorem hashKeyNat_lt (s : String) : hashKeyNat s < 4294967296 := by
  unfold hashKeyNat
  have key : ∀ (l : List Char) (h : Nat), h < 4294967296 →
      l.foldl hashStep h < 4294967296 := by
    intro l
    induction l with
    | nil => intro h hh; exact hh
    | cons c cs ih => intro h _; exact ih (hashStep h c) (lt_hashStep h c)
  exact key s.toList 2166136261 (by norm_num)

/-- C3 — Manifest diff correctness: `toAdd` is exactly `current − previous`,
`toDelete` exactly `previous − current`, the two are disjoint,
`diff(P, P)` is a pair of empty lists, and `diff(∅, C).toAdd = C`. -/
theorem diffManifests_correct (P C : List String) :
    (∀ id, id ∈ (diffManifests P C).1 ↔ id ∈ C ∧ id ∉ P)
    ∧ (∀ id, id ∈ (diffManifests P C).2 ↔ id ∈ P ∧ id ∉ C)
    ∧ (∀ id, ¬(id ∈ (diffManifests P C).1 ∧ id ∈ (diffManifests P C).2))
    ∧ diffManifests P P = ([], [])
    ∧ (diffManifests [] C).1 = C ∧ (diffManifests [] C).2 = [] := by
  refine ⟨?_, ?_, ?_, ?_, ?_, ?_⟩
  · intro id
    simp [diffManifests, List.mem_filter, List.elem_iff]
  · intro id
    simp [diffManifests, List.mem_filter, List.elem_iff]
  · intro id h
    obtain ⟨h1, h2⟩ := h
    simp [diffManifests, List.mem_filter, List.elem_iff] at h1 h2
    exact h1.2 h2.1
  · simp only [diffManifests, Prod.mk.injEq]
    constructor <;>
      · rw [List.filter_eq_nil_iff]
        intro a ha
        simp [List.elem_iff, ha]
  · simp [diffManifests]
  · simp [diffManifests]

theorem diffManifests_correct_witness :
    (∀ id, id ∈ (diffManifests ["a", "x"] ["a", "b"]).1 ↔
        id ∈ ["a", "b"] ∧ id ∉ ["a", "x"])
    ∧ (∀ id, id ∈ (diffManifests ["a", "x"] ["a", "b"]).2 ↔
        id ∈ ["a", "x"] ∧ id ∉ ["a", "b"])
    ∧ (∀ id, ¬(id ∈ (diffManifests ["a", "x"] ["a", "b"]).1 ∧
        id ∈ (diffManifests ["a", "x"] ["a", "b"]).2))
    ∧ diffManifests ["a", "x"] ["a", "x"] = ([], [])
    ∧ (diffManifests [] ["a", "b"]).1 = ["a", "b"]
    ∧ (diffManifests [] ["a", "b"]).2 = [] :=
  diffManifests_correct ["a", "x"] ["a", "b"]

/-- C5 — `deleteByIds` removes exactly the records whose id is listed, and
is a no-op (not an error) when none of the given ids is present.  (Definition
modelled from the spec, see `deleteByIds`.) -/
theorem deleteByIds_correct (records : List Item) (ids : List String) :
    (∀ r, r ∈ deleteByIds records ids ↔ r ∈ records ∧ r.id ∉ ids)
    ∧ ((∀ i ∈ ids, ∀ r ∈ records, r.id ≠ i) → deleteByIds records ids = records) := by
  constructor
  · intro r
    simp [deleteByIds, List.mem_filter, List.elem_iff]
  · intro hnone
    rw [deleteByIds, List.filter_eq_self]
    intro r hr
    simp only [Bool.not_eq_eq_eq_not, Bool.not_true, ← Bool.not_eq_true, List.elem_iff]
    intro hid
    exact hnone r.id hid r hr rfl

theorem deleteByIds_correct_witness :
    (∀ r, r ∈ deleteByIds [⟨"data/a.md:x", "data/a.md", 0, "hello", [1]⟩] ["ghost"] ↔
        r ∈ [⟨"data/a.md:x", "data/a.md", 0, "hello", [1]⟩] ∧ r.id ∉ ["ghost"])
    ∧ ((∀ i ∈ ["ghost"], ∀ r ∈ [(⟨"data/a.md:x", "data/a.md", 0, "hello", [1]⟩ : Item)],
          r.id ≠ i) →
        deleteByIds [⟨"data/a.md:x", "data/a.md", 0, "hello", [1]⟩] ["ghost"] =
          [⟨"data/a.md:x", "data/a.md", 0, "hello", [1]⟩])
    ∧ deleteByIds [⟨"data/a.md:x", "data/a.md", 0, "hello", [1]⟩] ["ghost"] =
        [⟨"data/a.md:x", "data/a.md", 0, "hello", [1]⟩] := by
  refine ⟨(deleteByIds_correct _ _).1, (deleteByIds_correct _ _).2, ?_⟩
  exact (deleteByIds_correct _ _).2 (by decide)

/-- C10 — `hashKey` folds every input into 32 bits, so it is not injective:
"costarring" and "liquid" are distinct texts whose keys collide, and after
the first text's embedding is cached, a request for the second text is
answered from the first text's cache entry without the embedding service
ever being consulted. -/
theorem hashKey_collision :
    ("costarring" : String) ≠ "liquid"
    ∧ hashKey "costarring" = hashKey "liquid"
    ∧ (∀ s : String, hashKeyNat s < 4294967296)
    ∧ (∀ (model : String) (v : Vec) (embedFn2 : List String → List Vec),
        (embedTextsCached model ["liquid"]
            (embedTextsCached model ["costarring"] [] (fun _ => [v])).2
            embedFn2).1 = [some v]) := by
  have hnat : hashKeyNat "costarring" = hashKeyNat "liquid" := by decide
  have hkey : hashKey "costarring" = hashKey "liquid" := by
    unfold hashKey; rw [hnat]
  refine ⟨by decide, hkey, hashKeyNat_lt, ?_⟩
  intro model v embedFn2
  have hck : embCacheKey model "liquid" = embCacheKey model "costarring" := by
    unfold embCacheKey; rw [hkey]
  simp [embedTextsCached, objSet, List.lookup, hck]

/-! ## Constraint filtering (`src/unnamed/part_002`, `applySourceFilters` and
`applyMustInclude`) -/

/-- JS `String.prototype.toLowerCase`, modelled per character (the texts in
the claims are ASCII, where `Char.toLower` agrees with JS). -/
def jsToLower (s : String) : String := String.mk (s.toList.map Char.toLower)

/-- JS `String.prototype.includes`: substring containment. -/
def jsIncludes (hay needle : String) : Bool := decide (needle.toList <:+: hay.toList)

/-- `applyMustInclude(hits, mustInclude, mode = "all")`:
returns `hits` unchanged when `mustInclude` is not an array or is empty;
lower-cases the keywords and drops falsy (empty) ones; returns `hits` if no
keyword remains; otherwise keeps a hit iff at least one keyword (`mode ===
"any"`) or every keyword (any other mode, `"all"` being the default) is a
substring of the lower-cased chunk text. -/
def applyMustInclude (hits : List Hit) (mustInclude : Option (List String))
    (mode : String) : List Hit :=
  match mustInclude with
  | none => hits
  | some mi =>
    if mi.isEmpty then hits
    else
      let kws := (mi.map jsToLower).filter (fun k => !(k == ""))
      if kws.isEmpty then hits
      else
        hits.filter (fun h =>
          let text := jsToLower h.item.content
          if mode == "any" then kws.any (fun k => jsIncludes text k)
          else kws.all (fun k => jsIncludes text k))

/-- The chunk of the claim's worked example, with content
"refund policy applies". -/
def refundHit : Hit :=
  ⟨⟨"data/faq.md:aaaa", "data/faq.md", 0, "refund policy applies", [1]⟩, 1⟩

/-- C9 counterexample: the claim's "any"-mode condition — keep the hit
exactly when at least one lower-cased keyword is a substring of the
lower-cased content — fails for the keyword list `["", "zzz"]`: the empty
keyword IS a substring of the content "abc", yet the code discards empty
keywords first (`.filter(Boolean)`) and therefore drops the hit because
only "zzz" is tested. -/
theorem applyMustInclude_empty_keyword_counterexample :
    applyMustInclude [⟨⟨"id1", "s", 0, "abc", [1]⟩, 1⟩] (some ["", "zzz"]) "any" = []
    ∧ (jsToLower "").toList <:+: (jsToLower "abc").toList
    ∧ ¬(∀ h, h ∈ applyMustInclude [⟨⟨"id1", "s", 0, "abc", [1]⟩, 1⟩]
          (some ["", "zzz"]) "any" ↔
        h ∈ [⟨⟨"id1", "s", 0, "abc", [1]⟩, 1⟩] ∧
          ∃ k ∈ ["", "zzz"], (jsToLower k).toList <:+: (jsToLower h.item.content).toList) := by
  refine ⟨by decide, by decide, ?_⟩
  intro hall
  have := (hall ⟨⟨"id1", "s", 0, "abc", [1]⟩, 1⟩).mpr
    ⟨by decide, "", by decide, by decide⟩
  revert this
  decide

/-- C9 (amended) — after discarding empty keywords, `applyMustInclude`
keeps a hit in mode `"any"` exactly when at least one remaining lower-cased
keyword is a substring of the lower-cased content (and keeps everything if
no keyword remains), and in every other mode (`"all"`, the default) exactly
when every remaining keyword is such a substring; on the worked example
"refund policy applies" with keywords `["refund", "partial"]`, mode `"all"`
excludes the chunk and mode `"any"` includes it. -/
theorem applyMustInclude_correct (hits : List Hit) (mi : List String) (mode : String) :
    (mode = "any" →
      ∀ h, h ∈ applyMustInclude hits (some mi) mode ↔
        h ∈ hits ∧
          ((mi.map jsToLower).filter (fun k => !(k == "")) ≠ [] →
            ∃ k ∈ (mi.map jsToLower).filter (fun k => !(k == "")),
              k.toList <:+: (jsToLower h.item.content).toList))
    ∧ (mode ≠ "any" →
      ∀ h, h ∈ applyMustInclude hits (some mi) mode ↔
        h ∈ hits ∧
          ∀ k ∈ (mi.map jsToLower).filter (fun k => !(k == "")),
            k.toList <:+: (jsToLower h.item.content).toList)
    ∧ applyMustInclude hits none mode = hits
    ∧ applyMustInclude [refundHit] (some ["refund", "partial"]) "all" = []
    ∧ applyMustInclude [refundHit] (some ["refund", "partial"]) "any" = [refundHit] := by
  refine ⟨?_, ?_, rfl, by decide, by decide⟩
  · rintro rfl h
    simp only [applyMustInclude]
    by_cases hmi : mi.isEmpty
    · have hnil : mi = [] := List.isEmpty_iff.mp hmi
      subst hnil
      simp
    · rw [if_neg (by simpa using hmi)]
      by_cases hk : ((mi.map jsToLower).filter (fun k => !(k == ""))).isEmpty
      · have hknil := List.isEmpty_iff.mp hk
        simp [hk, hknil]
      · have hknil : (mi.map jsToLower).filter (fun k => !(k == "")) ≠ [] := by
          simpa [List.isEmpty_iff] using hk
        simp only [hknil, ne_eq, not_false_eq_true, forall_const]
        simp [hk, List.mem_filter, List.any_eq_true, jsIncludes]
        intro _
        constructor
        · rintro ⟨x, hx, hne, hinf⟩
          exact ⟨jsToLower x, ⟨⟨x, hx, rfl⟩, hne⟩, hinf⟩
        · rintro ⟨k, ⟨⟨a, ha, rfl⟩, hne⟩, hinf⟩
          exact ⟨a, ha, hne, hinf⟩
  · intro hmode h
    have hb : (mode == "any") = false := beq_eq_false_iff_ne.mpr hmode
    simp only [applyMustInclude]
    by_cases hmi : mi.isEmpty
    · have hnil : mi = [] := List.isEmpty_iff.mp hmi
      subst hnil
      simp
    · rw [if_neg (by simpa using hmi)]
      by_cases hk : ((mi.map jsToLower).filter (fun k => !(k == ""))).isEmpty
      · have hknil := List.isEmpty_iff.mp hk
        simp [hk, hknil]
      · simp [hk, hb, List.mem_filter, List.all_eq_true, jsIncludes]
        intro _
        constructor
        · intro hall a ha hne
          rcases hall a ha with h1 | h1
          · exact absurd h1 hne
          · exact h1
        · intro hall x hx
          by_cases he : jsToLower x = ""
          · exact Or.inl he
          · exact Or.inr (hall x hx he)

theorem applyMustInclude_correct_witness :
    ("all" : String) ≠ "any" ∧
    (∀ h, h ∈ applyMustInclude [refundHit] (some ["refund", "partial"]) "all" ↔
      h ∈ [refundHit] ∧
        ∀ k ∈ ((["refund", "partial"].map jsToLower).filter (fun k => !(k == ""))),
          k.toList <:+: (jsToLower h.item.content).toList) :=
  ⟨by decide, (applyMustInclude_correct [refundHit] ["refund", "partial"] "all").2.1
    (by decide)⟩

/-! ## Diversity selection (`src/unnamed/part_002`, `pickDiverse`) -/

/-- The `for (const h of hits)` loop of `pickDiverse`.  `picked` and
`pickedEmbeds` are the two accumulator arrays; the `break` at
`picked.length >= k` ends the whole loop, i.e. returns `picked`;
`maxSimToPicked` is the running maximum, initialised to 0, of the dot
products with the already-picked embeddings; the candidate is pushed when
`picked.length === 0 || mmrScore > minKeep`. -/
def pickDiverseLoop (k : Nat) (lam minKeep : ℚ)
    (picked : List Hit) (pickedEmbeds : List Vec) : List Hit → List Hit
  | [] => picked
  | h :: rest =>
    if picked.length ≥ k then picked
    else
      let maxSimToPicked := pickedEmbeds.foldl
        (fun m pe => if dot h.item.embeddingUnit pe > m then dot h.item.embeddingUnit pe else m) 0
      let mmrScore := lam * h.score - (1 - lam) * maxSimToPicked
      if picked.length = 0 ∨ mmrScore > minKeep then
        pickDiverseLoop k lam minKeep (picked ++ [h])
          (pickedEmbeds ++ [h.item.embeddingUnit]) rest
      else
        pickDiverseLoop k lam minKeep picked pickedEmbeds rest

/-- `pickDiverse(hits, { k, lambda, minKeep })` (defaults in the source:
`k = CONTEXT_K`, `lambda = 0.8`, `minKeep = 0.1`). -/
def pickDiverse (hits : List Hit) (k : Nat) (lam minKeep : ℚ) : List Hit :=
  pickDiverseLoop k lam minKeep [] [] hits

/-- The amended claim's `maxSim`: the highest cosine similarity (dot product
of unit vectors) between the candidate and any already-picked hit, clamped
below at 0 — which is what the code's running maximum, initialised to 0,
computes. -/
def specMaxSim (cand : Hit) (picked : List Hit) : ℚ :=
  (picked.map (fun p => dot cand.item.embeddingUnit p.item.embeddingUnit)).foldr max 0

/-- `pickDiverse` as the amended claim words it: accept the very first pick
unconditionally, accept a later candidate exactly when
`lam * score - (1 - lam) * maxSim > minKeep` with `maxSim = specMaxSim`,
stop once `k` hits are picked or the candidates are exhausted. -/
def pickDiverseSpec (k : Nat) (lam minKeep : ℚ) (picked : List Hit) : List Hit → List Hit
  | [] => picked
  | h :: rest =>
    if k ≤ picked.length then picked
    else if picked = [] ∨ lam * h.score - (1 - lam) * specMaxSim h picked > minKeep then
      pickDiverseSpec k lam minKeep (picked ++ [h]) rest
    else
      pickDiverseSpec k lam minKeep picked rest

theorem foldr_max_init (l : List ℚ) (m x : ℚ) :
    l.foldr max (max m x) = max x (l.foldr max m) := by
  induction l with
  | nil => exact max_comm m x
  | cons b t ih => simpa [List.foldr, ih] using max_left_comm b x (t.foldr max m)

theorem runmax_eq_foldr (c : Vec) (l : List Vec) (m : ℚ) :
    l.foldl (fun acc pe => if dot c pe > acc then dot c pe else acc) m
      = (l.map (dot c)).foldr max m := by
  induction l generalizing m with
  | nil => rfl
  | cons a t ih =>
    have hstep : (if dot c a > m then dot c a else m) = max m (dot c a) := by
      rcases le_total (dot c a) m with h | h
      · rcases lt_or_eq_of_le h with h1 | h1
        · simp [not_lt.mpr h, max_eq_left h]
        · simp [h1]
      · rcases lt_or_eq_of_le h with h1 | h1
        · simp [h1, max_eq_right h]
        · simp [h1]
    rw [List.foldl_cons, hstep, ih, List.map_cons, List.foldr_cons, foldr_max_init]

theorem pickDiverseLoop_eq_spec (k : Nat) (lam minKeep : ℚ) (hits picked : List Hit) :
    pickDiverseLoop k lam minKeep picked (picked.map (fun p => p.item.embeddingUnit)) hits
      = pickDiverseSpec k lam minKeep picked hits := by
  induction hits generalizing picked with
  | nil => rfl
  | cons h rest ih =>
    rw [pickDiverseLoop, pickDiverseSpec]
    by_cases hlen : picked.length ≥ k
    · rw [if_pos hlen, if_pos hlen]
    · rw [if_neg hlen, if_neg hlen]
      have hmax :
          (picked.map (fun p => p.item.embeddingUnit)).foldl
            (fun m pe => if dot h.item.embeddingUnit pe > m then dot h.item.embeddingUnit pe else m)
            0 = specMaxSim h picked := by
        rw [runmax_eq_foldr, specMaxSim, List.map_map]
        rfl
      have hempty : (picked.length = 0) = (picked = []) := by
        simp [List.length_eq_zero]
      simp only [hmax, hempty]
      by_cases hacc :
          picked = [] ∨ lam * h.score - (1 - lam) * specMaxSim h picked > minKeep
      · rw [if_pos hacc, if_pos hacc, ← ih (picked ++ [h]), List.map_append]
        rfl
      · rw [if_neg hacc, if_neg hacc, ih]

theorem pickDiverseLoop_length (k : Nat) (lam minKeep : ℚ)
    (hits picked : List Hit) (embeds : List Vec) (hp : picked.length ≤ k) :
    (pickDiverseLoop k lam minKeep picked embeds hits).length ≤ k := by
  induction hits generalizing picked embeds with
  | nil => exact hp
  | cons h rest ih =>
    rw [pickDiverseLoop]
    by_cases hlen : picked.length ≥ k
    · rw [if_pos hlen]; exact hp
    · rw [if_neg hlen]
      simp only []
      by_cases hacc : picked.length = 0 ∨
          lam * h.score - (1 - lam) *
            (embeds.foldl (fun m pe =>
              if dot h.item.embeddingUnit pe > m then dot h.item.embeddingUnit pe else m) 0)
            > minKeep
      · rw [if_pos hacc]
        exact ih _ _ (by simpa using Nat.succ_le_of_lt (lt_of_not_ge hlen))
      · rw [if_neg hacc]
        exact ih _ _ hp

theorem pickDiverseLoop_append (k : Nat) (lam minKeep : ℚ)
    (hits picked : List Hit) (embeds : List Vec) :
    ∃ s, s.Sublist hits ∧
      pickDiverseLoop k lam minKeep picked embeds hits = picked ++ s := by
  induction hits generalizing picked embeds with
  | nil => exact ⟨[], List.Sublist.refl [], by simp [pickDiverseLoop]⟩
  | cons h rest ih =>
    rw [pickDiverseLoop]
    by_cases hlen : picked.length ≥ k
    · exact ⟨[], List.nil_sublist _, by simp [if_pos hlen]⟩
    · rw [if_neg hlen]
      simp only []
      by_cases hacc : picked.length = 0 ∨
          lam * h.score - (1 - lam) *
            (embeds.foldl (fun m pe =>
              if dot h.item.embeddingUnit pe > m then dot h.item.embeddingUnit pe else m) 0)
            > minKeep
      · rw [if_pos hacc]
        obtain ⟨s, hs, heq⟩ := ih (picked ++ [h]) (embeds ++ [h.item.embeddingUnit])
        exact ⟨h :: s, List.Sublist.cons₂ h hs, by simpa using heq⟩
      · rw [if_neg hacc]
        obtain ⟨s, hs, heq⟩ := ih picked embeds
        exact ⟨s, List.Sublist.cons h hs, heq⟩

/-- First hit of the C8 counterexample (accepted as the very first pick). -/
def cexA : Hit := ⟨⟨"idA", "s", 0, "cA", [1]⟩, 1⟩

/-- Second hit of the C8 counterexample: its embedding points opposite to
`cexA`, so its only cosine similarity to the picked set is −1. -/
def cexB : Hit := ⟨⟨"idB", "s", 0, "cB", [-1]⟩, 0⟩

/-- C8 counterexample: with the default `λ = 0.8`, `minKeep = 0.1` and a
score-ordered hit list `[cexA, cexB]`, the candidate `cexB` satisfies the
claim's acceptance condition `λ·score − (1−λ)·maxSim > minKeep` (its highest
cosine similarity to the picked set is `dot = −1`, giving `0.2 > 0.1`), yet
the code rejects it: the running maximum `maxSimToPicked` starts at `0` and
never goes below it, so the code computes `0 > 0.1` and drops the hit. -/
theorem pickDiverse_unclamped_counterexample :
    pickDiverse [cexA, cexB] 6 (4/5) (1/10) = [cexA]
    ∧ (4/5 : ℚ) * cexB.score -
        (1 - 4/5) * dot cexB.item.embeddingUnit cexA.item.embeddingUnit > 1/10
    ∧ cexB ∉ pickDiverse [cexA, cexB] 6 (4/5) (1/10) := by
  have heval : pickDiverse [cexA, cexB] 6 (4/5) (1/10) = [cexA] := by
    rw [pickDiverse, pickDiverseLoop]
    norm_num
    rw [pickDiverseLoop]
    norm_num [cexA, cexB, dot]
    rw [pickDiverseLoop]
  refine ⟨heval, by norm_num [cexA, cexB, dot], ?_⟩
  rw [heval]
  intro hmem
  rcases List.mem_singleton.mp hmem with h
  exact absurd (congrArg (fun x => x.item.id) h) (by decide)

/-- C8 (amended) — `pickDiverse` accepts the very first candidate
unconditionally, accepts a later candidate exactly when
`λ·score − (1−λ)·maxSim > minKeep` where `maxSim` is the highest cosine
similarity to the already-picked vectors **clamped below at 0** (the code's
running maximum starts at 0), stops once `k = contextK` hits are picked or
the candidates are exhausted (stated as equality with `pickDiverseSpec`,
the recursion written from the amended claim's words), and its output never
exceeds `k` hits, is a sublist of its input, and never contains the same
record twice when the input lists each record once. -/
theorem pickDiverse_amended (hits : List Hit) (k : Nat) (lam minKeep : ℚ) :
    pickDiverse hits k lam minKeep = pickDiverseSpec k lam minKeep [] hits
    ∧ (pickDiverse hits k lam minKeep).length ≤ k
    ∧ (pickDiverse hits k lam minKeep).Sublist hits
    ∧ ((hits.map (fun h => h.item.id)).Nodup →
        ((pickDiverse hits k lam minKeep).map (fun h => h.item.id)).Nodup)
    ∧ (0 < k → ∀ h t, hits = h :: t →
        (pickDiverse hits k lam minKeep).head? = some h) := by
  have hsub : (pickDiverse hits k lam minKeep).Sublist hits := by
    obtain ⟨s, hs, heq⟩ := pickDiverseLoop_append k lam minKeep hits [] []
    rw [pickDiverse, heq]
    simpa using hs
  refine ⟨pickDiverseLoop_eq_spec k lam minKeep hits [],
    pickDiverseLoop_length k lam minKeep hits [] [] (Nat.zero_le k), hsub, ?_, ?_⟩
  · intro hnd
    exact List.Nodup.sublist (List.Sublist.map (fun h => h.item.id) hsub) hnd
  · intro hk h t hht
    subst hht
    have hstep : pickDiverse (h :: t) k lam minKeep =
        pickDiverseLoop k lam minKeep [h] [h.item.embeddingUnit] t := by
      rw [pickDiverse, pickDiverseLoop]
      rw [if_neg (by simpa using Nat.not_le.mpr hk)]
      simp
    obtain ⟨s, _, heq⟩ := pickDiverseLoop_append k lam minKeep t [h] [h.item.embeddingUnit]
    rw [hstep, heq]
    rfl

theorem pickDiverse_amended_witness :
    (0 < 6
      ∧ (pickDiverse [cexA, cexB] 6 (4/5) (1/10)).head? = some cexA)
    ∧ pickDiverse [cexA, cexB] 6 (4/5) (1/10) =
        pickDiverseSpec 6 (4/5) (1/10) [] [cexA, cexB]
    ∧ (pickDiverse [cexA, cexB] 6 (4/5) (1/10)).length ≤ 6 :=
  ⟨⟨by norm_num,
    (pickDiverse_amended [cexA, cexB] 6 (4/5) (1/10)).2.2.2.2 (by norm_num) cexA [cexB] rfl⟩,
   (pickDiverse_amended [cexA, cexB] 6 (4/5) (1/10)).1,
   (pickDiverse_amended [cexA, cexB] 6 (4/5) (1/10)).2.1⟩

/-! ## Reciprocal Rank Fusion (`src/src/vectorStore.js`, `rrfFuse` and
`hybridSearch`).

The `out` map of `rrfFuse` is modelled as an insertion-ordered assoc list of
`Hit`s.  The entries additionally carry a `_rrf: { vector, fts }` breakdown
in the source; it is write-only bookkeeping (never read anywhere, not even
by the debug output), so the model keeps just `{ item, score }`. -/

/-- `prev.score += add`. -/
def bumpScore (add : ℚ) (h : Hit) : Hit := { h with score := h.score + add }

/-- `out.set(h.item.id, ...)` inside `addRankScore`: a fresh id appends
`{ item, score: add }`, a known id gets `score += add` in place. -/
def upsertFused (add : ℚ) (it : Item) (out : List (String × Hit)) :
    List (String × Hit) :=
  match out.lookup it.id with
  | none => out ++ [(it.id, ⟨it, add⟩)]
  | some _ => out.map (fun p => if p.1 == it.id then (p.1, bumpScore add p.2) else p)

/-- `addRankScore(hits, listName)`: `hits.forEach((h, idx) => ...)` with
`rank = idx + 1` and `add = 1 / (K + rank)`; `idx` is threaded explicitly.
(`listName` only feeds the omitted `_rrf` bookkeeping.) -/
def addRankScore (K : ℚ) : List Hit → Nat → List (String × Hit) → List (String × Hit)
  | [], _, out => out
  | h :: rest, idx, out =>
      addRankScore K rest (idx + 1) (upsertFused (1 / (K + ((idx : ℚ) + 1))) h.item out)

/-- `LanceVectorStore.rrfFuse(vectorHits, ftsHits, { K = 60 })`: re-sort each
list best-first, accumulate the rank contributions of the vector list and
then of the fts list, and sort the map's values by fused score descending. -/
def rrfFuse (vectorHits ftsHits : List Hit) (K : ℚ) : List Hit :=
  let v := sortByScoreDesc Hit.score vectorHits
  let f := sortByScoreDesc Hit.score ftsHits
  let out := addRankScore K f 0 (addRankScore K v 0 [])
  sortByScoreDesc Hit.score (out.map Prod.snd)

/-- `hybridSearch(queryVector, queryText, { topK, rrfK })`, given the two
backend result lists (the concurrent `vectorSearch`/`ftsSearch` calls are
external LanceDB collaborators): `rrfFuse(...).slice(0, topK)`. -/
def hybridSearch (vectorHits ftsHits : List Hit) (topK : Nat) (K : ℚ) : List Hit :=
  (rrfFuse vectorHits ftsHits K).take topK

/-- The 1-based rank of the (first) hit with the given id, if present. -/
def rankOf (id : String) : List Hit → Option Nat
  | [] => none
  | h :: rest => if h.item.id == id then some 1 else (rankOf id rest).map (· + 1)

/-- The claim's per-list RRF contribution: `1 / (rrfK + r)` for a record at
rank `r` in the list, `0` for an absent record. -/
def rrfContrib (K : ℚ) (hits : List Hit) (id : String) : ℚ :=
  match rankOf id hits with
  | some r => 1 / (K + (r : ℚ))
  | none => 0

/-- Same with the accumulated `forEach` index offset. -/
def rrfContribFrom (K : ℚ) (idx : Nat) (hits : List Hit) (id : String) : ℚ :=
  match rankOf id hits with
  | some r => 1 / (K + ((idx : ℚ) + (r : ℚ)))
  | none => 0

/-- The fused score an assoc-list state assigns to an id (0 when absent). -/
def optScore (out : List (String × Hit)) (id : String) : ℚ :=
  ((out.lookup id).map Hit.score).getD 0

theorem rrfContrib_eq_from_zero (K : ℚ) (hits : List Hit) (id : String) :
    rrfContrib K hits id = rrfContribFrom K 0 hits id := by
  unfold rrfContrib rrfContribFrom
  cases rankOf id hits <;> simp

theorem rankOf_none_iff (id : String) (l : List Hit) :
    rankOf id l = none ↔ ∀ h ∈ l, h.item.id ≠ id := by
  induction l with
  | nil => simp [rankOf]
  | cons h rest ih =>
    by_cases hid : h.item.id = id
    · simp [rankOf, hid]
    · simp only [rankOf, beq_eq_false_iff_ne.mpr hid, if_neg]
      simp [Option.map_eq_none', ih, hid]

theorem lookup_cons {β : Type} (a : String) (p : String × β) (t : List (String × β)) :
    (p :: t).lookup a = if a == p.1 then some p.2 else t.lookup a := by
  rcases p with ⟨k, v⟩
  by_cases h : (a == k) = true
  · simp [List.lookup, h]
  · simp only [Bool.not_eq_true] at h
    simp [List.lookup, h]

theorem lookup_none_iff {β : Type} (a : String) (l : List (String × β)) :
    l.lookup a = none ↔ ∀ p ∈ l, p.1 ≠ a := by
  induction l with
  | nil => simp [List.lookup]
  | cons p t ih =>
    rw [lookup_cons]
    by_cases hp : p.1 = a
    · simp [hp]
    · rw [if_neg (by simpa using Ne.symm hp)]
      simp [ih, hp]

theorem lookup_append_of_none {β : Type} (l1 l2 : List (String × β)) (a : String)
    (h : l1.lookup a = none) : (l1 ++ l2).lookup a = l2.lookup a := by
  induction l1 with
  | nil => rfl
  | cons p t ih =>
    rw [List.cons_append, lookup_cons]
    rw [lookup_cons] at h
    by_cases hp : (a == p.1) = true
    · rw [if_pos hp] at h; exact absurd h (by simp)
    · rw [if_neg hp] at h ⊢
      exact ih h

theorem lookup_map_update (key : String) (g : Hit → Hit) (l : List (String × Hit)) :
    (l.map (fun p => if p.1 == key then (p.1, g p.2) else p)).lookup key
      = (l.lookup key).map g := by
  induction l with
  | nil => rfl
  | cons p t ih =>
    rcases p with ⟨pk, pv⟩
    by_cases hp : pk = key
    · subst hp
      simp [lookup_cons]
    · simp only [beq_iff_eq] at ih
      simp [lookup_cons, hp, Ne.symm hp, ih]

theorem lookup_map_update_ne (key a : String) (g : Hit → Hit)
    (l : List (String × Hit)) (hne : a ≠ key) :
    (l.map (fun p => if p.1 == key then (p.1, g p.2) else p)).lookup a
      = l.lookup a := by
  induction l with
  | nil => rfl
  | cons p t ih =>
    rcases p with ⟨pk, pv⟩
    by_cases hp : pk = key
    · subst hp
      simp only [beq_iff_eq] at ih
      simp [lookup_cons, hne, ih]
    · simp only [beq_iff_eq] at ih
      simp [lookup_cons, hp, ih]

theorem lookup_mem {β : Type} (a : String) (b : β) (l : List (String × β))
    (h : l.lookup a = some b) : (a, b) ∈ l := by
  induction l with
  | nil => simp [List.lookup] at h
  | cons p t ih =>
    rw [lookup_cons] at h
    by_cases hp : (a == p.1) = true
    · rw [if_pos hp] at h
      obtain rfl : p.2 = b := by simpa using h
      obtain rfl : a = p.1 := by simpa using hp
      exact List.mem_cons_self _ _
    · rw [if_neg hp] at h
      exact List.mem_cons_of_mem _ (ih h)

theorem lookup_append_some {β : Type} (l1 l2 : List (String × β)) (a : String) (b : β)
    (h : l1.lookup a = some b) : (l1 ++ l2).lookup a = some b := by
  induction l1 with
  | nil => simp [List.lookup] at h
  | cons p t ih =>
    rw [lookup_cons] at h
    rw [List.cons_append, lookup_cons]
    by_cases hp : (a == p.1) = true
    · rw [if_pos hp] at h ⊢; exact h
    · rw [if_neg hp] at h ⊢; exact ih h

/-- Invariant: every map entry is stored under its item's id. -/
def Keyed (out : List (String × Hit)) : Prop := ∀ p ∈ out, p.2.item.id = p.1

theorem optScore_upsert_self (add : ℚ) (it : Item) (out : List (String × Hit)) :
    optScore (upsertFused add it out) it.id = optScore out it.id + add := by
  unfold upsertFused
  cases hl : out.lookup it.id with
  | none =>
    rw [optScore, lookup_append_of_none _ _ _ hl, optScore, hl]
    simp [lookup_cons]
  | some h =>
    rw [optScore, lookup_map_update, hl, optScore, hl]
    simp [bumpScore]

theorem lookup_upsert_ne (add : ℚ) (it : Item) (out : List (String × Hit))
    (a : String) (hne : a ≠ it.id) :
    (upsertFused add it out).lookup a = out.lookup a := by
  unfold upsertFused
  cases hl : out.lookup it.id with
  | none =>
    cases hout : out.lookup a with
    | none =>
      rw [lookup_append_of_none _ _ _ hout, lookup_cons]
      simp [beq_eq_false_iff_ne.mpr hne]
    | some b => exact lookup_append_some _ _ _ _ hout
  | some h => exact lookup_map_update_ne it.id a _ out hne

theorem lookup_upsert_self_isSome (add : ℚ) (it : Item) (out : List (String × Hit)) :
    ((upsertFused add it out).lookup it.id).isSome := by
  unfold upsertFused
  cases hl : out.lookup it.id with
  | none =>
    rw [lookup_append_of_none _ _ _ hl, lookup_cons]
    simp
  | some h =>
    rw [lookup_map_update, hl]
    simp

theorem keys_upsert (add : ℚ) (it : Item) (out : List (String × Hit)) :
    (upsertFused add it out).map Prod.fst =
      if (out.lookup it.id).isSome then out.map Prod.fst
      else out.map Prod.fst ++ [it.id] := by
  unfold upsertFused
  cases hl : out.lookup it.id with
  | none => simp
  | some h =>
    simp only [Option.isSome_some, if_true]
    rw [List.map_map]
    have hfun : (Prod.fst ∘ fun p : String × Hit =>
        if p.1 == it.id then (p.1, bumpScore add p.2) else p) = Prod.fst := by
      funext p
      by_cases hp : (p.1 == it.id) = true <;> simp [Function.comp, hp]
    rw [hfun]

theorem keyed_upsert (add : ℚ) (it : Item) (out : List (String × Hit))
    (h : Keyed out) : Keyed (upsertFused add it out) := by
  unfold upsertFused
  cases hl : out.lookup it.id with
  | none =>
    intro p hp
    rcases List.mem_append.mp hp with hp1 | hp1
    · exact h p hp1
    · rcases List.mem_singleton.mp hp1 with rfl
      rfl
  | some b =>
    intro p hp
    rcases List.mem_map.mp hp with ⟨q, hq, rfl⟩
    by_cases hqk : (q.1 == it.id) = true
    · rw [if_pos hqk]
      exact h q hq
    · rw [if_neg hqk]
      exact h q hq

theorem nodupKeys_upsert (add : ℚ) (it : Item) (out : List (String × Hit))
    (h : (out.map Prod.fst).Nodup) :
    ((upsertFused add it out).map Prod.fst).Nodup := by
  rw [keys_upsert]
  cases hl : out.lookup it.id with
  | none =>
    simp only [Option.isSome_none, Bool.false_eq_true, if_false]
    rw [List.nodup_append]
    refine ⟨h, List.nodup_singleton _, ?_⟩
    intro a ha hb
    rcases List.mem_singleton.mp hb with rfl
    rcases List.mem_map.mp ha with ⟨p, hp, hpe⟩
    exact (lookup_none_iff _ _).mp hl p hp hpe
  | some b => simpa using h

theorem lookup_eq_of_mem {β : Type} (out : List (String × β)) (k : String) (b : β)
    (hnd : (out.map Prod.fst).Nodup) (hmem : (k, b) ∈ out) :
    out.lookup k = some b := by
  induction out with
  | nil => cases hmem
  | cons p t ih =>
    rw [List.map_cons] at hnd
    obtain ⟨hp1, hp2⟩ := List.nodup_cons.mp hnd
    rcases List.mem_cons.mp hmem with heq | hmem'
    · subst heq
      rw [lookup_cons]
      simp
    · have hk : ¬(k == p.1) = true := by
        simp only [beq_iff_eq]
        rintro rfl
        exact hp1 (List.mem_map.mpr ⟨(p.1, b), hmem', rfl⟩)
      rw [lookup_cons, if_neg hk]
      exact ih hp2 hmem'

/-! Lemmas about `addRankScore`'s accumulated state. -/

theorem rrfContribFrom_eq_of_rank (K : ℚ) (idx : Nat) (hits : List Hit)
    (id : String) (r : Nat) (h : rankOf id hits = some r) :
    rrfContribFrom K idx hits id = 1 / (K + ((idx : ℚ) + (r : ℚ))) := by
  unfold rrfContribFrom
  rw [h]

theorem rrfContribFrom_eq_zero (K : ℚ) (idx : Nat) (hits : List Hit)
    (id : String) (h : rankOf id hits = none) :
    rrfContribFrom K idx hits id = 0 := by
  unfold rrfContribFrom
  rw [h]

theorem optScore_addRankScore (K : ℚ) (hits : List Hit) (idx : Nat)
    (out : List (String × Hit)) (id : String)
    (hnd : (hits.map (fun h => h.item.id)).Nodup) :
    optScore (addRankScore K hits idx out) id =
      optScore out id + rrfContribFrom K idx hits id := by
  induction hits generalizing idx out with
  | nil => simp [addRankScore, rrfContribFrom, rankOf]
  | cons h rest ih =>
    rw [List.map_cons] at hnd
    obtain ⟨hh, hrest⟩ := List.nodup_cons.mp hnd
    rw [addRankScore, ih (idx + 1) _ hrest]
    by_cases hid : h.item.id = id
    · have hnone : rankOf id rest = none := by
        rw [rankOf_none_iff]
        intro h' hm heq
        exact hh (List.mem_map.mpr ⟨h', hm, heq.trans hid.symm⟩)
      have hrank : rankOf id (h :: rest) = some 1 := by
        rw [rankOf, if_pos (beq_iff_eq.mpr hid)]
      rw [← hid, optScore_upsert_self, hid,
        rrfContribFrom_eq_zero K (idx + 1) rest id hnone,
        rrfContribFrom_eq_of_rank K idx (h :: rest) id 1 hrank]
      push_cast
      ring
    · rw [optScore, lookup_upsert_ne _ _ _ _ (fun he => hid he.symm), ← optScore]
      have hrank : rankOf id (h :: rest) = (rankOf id rest).map (· + 1) := by
        rw [rankOf, if_neg (by simpa using hid)]
      cases hr : rankOf id rest with
      | none =>
        rw [rrfContribFrom_eq_zero K (idx + 1) rest id hr,
          rrfContribFrom_eq_zero K idx (h :: rest) id (by rw [hrank, hr]; rfl)]
      | some r =>
        rw [rrfContribFrom_eq_of_rank K (idx + 1) rest id r hr,
          rrfContribFrom_eq_of_rank K idx (h :: rest) id (r + 1) (by rw [hrank, hr]; rfl)]
        push_cast
        ring

theorem lookup_addRankScore_none_iff (K : ℚ) (hits : List Hit) (idx : Nat)
    (out : List (String × Hit)) (id : String) :
    (addRankScore K hits idx out).lookup id = none ↔
      out.lookup id = none ∧ ∀ h ∈ hits, h.item.id ≠ id := by
  induction hits generalizing idx out with
  | nil => simp [addRankScore]
  | cons h rest ih =>
    rw [addRankScore, ih]
    constructor
    · rintro ⟨h1, h2⟩
      by_cases hid : h.item.id = id
      · exfalso
        have := lookup_upsert_self_isSome (1 / (K + ((idx : ℚ) + 1))) h.item out
        rw [hid, h1] at this
        cases this
      · rw [lookup_upsert_ne _ _ _ _ (fun he => hid he.symm)] at h1
        refine ⟨h1, ?_⟩
        intro h' hm
        rcases List.mem_cons.mp hm with rfl | hm'
        · exact hid
        · exact h2 h' hm'
    · rintro ⟨h1, h2⟩
      have hid : h.item.id ≠ id := h2 h (List.mem_cons_self _ _)
      refine ⟨?_, fun h' hm' => h2 h' (List.mem_cons_of_mem _ hm')⟩
      rw [lookup_upsert_ne _ _ _ _ (fun he => hid he.symm)]
      exact h1

theorem keyed_addRankScore (K : ℚ) (hits : List Hit) (idx : Nat)
    (out : List (String × Hit)) (h : Keyed out) :
    Keyed (addRankScore K hits idx out) := by
  induction hits generalizing idx out with
  | nil => exact h
  | cons h0 rest ih =>
    rw [addRankScore]
    exact ih _ _ (keyed_upsert _ _ _ h)

theorem nodupKeys_addRankScore (K : ℚ) (hits : List Hit) (idx : Nat)
    (out : List (String × Hit)) (h : (out.map Prod.fst).Nodup) :
    ((addRankScore K hits idx out).map Prod.fst).Nodup := by
  induction hits generalizing idx out with
  | nil => exact h
  | cons h0 rest ih =>
    rw [addRankScore]
    exact ih _ _ (nodupKeys_upsert _ _ _ h)

/-- C1 — Reciprocal Rank Fusion correctness: for ranked (best-first, duplicate-free)
vector and keyword hit lists, every fused record's score is the sum over both
lists of `1 / (rrfK + r)` (`r` its 1-based rank there, `0` when absent), the
fused records are exactly those appearing in either list, the output is
sorted descending by fused score, and `hybridSearch` is the fused list
truncated to `topK`. -/
theorem hybridSearch_rrf_correct (vectorHits ftsHits : List Hit) (topK : Nat) (K : ℚ)
    (hv : ScoreSortedDesc Hit.score vectorHits) (hf : ScoreSortedDesc Hit.score ftsHits)
    (hvn : (vectorHits.map (fun h => h.item.id)).Nodup)
    (hfn : (ftsHits.map (fun h => h.item.id)).Nodup) :
    (∀ fh ∈ rrfFuse vectorHits ftsHits K,
        fh.score = rrfContrib K vectorHits fh.item.id + rrfContrib K ftsHits fh.item.id)
    ∧ (∀ id, (∃ fh ∈ rrfFuse vectorHits ftsHits K, fh.item.id = id) ↔
        ((∃ h ∈ vectorHits, h.item.id = id) ∨ (∃ h ∈ ftsHits, h.item.id = id)))
    ∧ ScoreSortedDesc Hit.score (rrfFuse vectorHits ftsHits K)
    ∧ hybridSearch vectorHits ftsHits topK K = (rrfFuse vectorHits ftsHits K).take topK
    ∧ (hybridSearch vectorHits ftsHits topK K).length ≤ topK
    ∧ ScoreSortedDesc Hit.score (hybridSearch vectorHits ftsHits topK K)
    ∧ (∀ fh ∈ hybridSearch vectorHits ftsHits topK K,
        fh.score = rrfContrib K vectorHits fh.item.id + rrfContrib K ftsHits fh.item.id) := by
  have hfuse : rrfFuse vectorHits ftsHits K =
      sortByScoreDesc Hit.score
        ((addRankScore K ftsHits 0 (addRankScore K vectorHits 0 [])).map Prod.snd) := by
    rw [rrfFuse, sortByScoreDesc_eq_self Hit.score vectorHits hv,
      sortByScoreDesc_eq_self Hit.score ftsHits hf]
  have hkeyed : Keyed (addRankScore K ftsHits 0 (addRankScore K vectorHits 0 [])) :=
    keyed_addRankScore _ _ _ _
      (keyed_addRankScore _ _ _ _ (fun p hp => absurd hp (List.not_mem_nil p)))
  have hnk : ((addRankScore K ftsHits 0 (addRankScore K vectorHits 0 [])).map
      Prod.fst).Nodup :=
    nodupKeys_addRankScore _ _ _ _
      (nodupKeys_addRankScore _ _ _ _ (by simp))
  have hscore : ∀ id,
      optScore (addRankScore K ftsHits 0 (addRankScore K vectorHits 0 [])) id =
        rrfContrib K vectorHits id + rrfContrib K ftsHits id := by
    intro id
    rw [optScore_addRankScore K ftsHits 0 _ id hfn,
      optScore_addRankScore K vectorHits 0 _ id hvn,
      rrfContrib_eq_from_zero K vectorHits id, rrfContrib_eq_from_zero K ftsHits id]
    have h0 : optScore [] id = 0 := rfl
    rw [h0, zero_add]
  have hmem_score : ∀ fh ∈ rrfFuse vectorHits ftsHits K,
      fh.score = rrfContrib K vectorHits fh.item.id + rrfContrib K ftsHits fh.item.id := by
    intro fh hfh
    rw [hfuse] at hfh
    obtain ⟨p, hp, hsnd⟩ :=
      List.mem_map.mp ((mem_sortByScoreDesc Hit.score _ fh).mp hfh)
    have hkey : p.1 = fh.item.id := by
      rw [← hkeyed p hp, hsnd]
    have hlk : (addRankScore K ftsHits 0 (addRankScore K vectorHits 0 [])).lookup
        fh.item.id = some fh := by
      rw [← hkey]
      have hpair : (p.1, fh) ∈
          addRankScore K ftsHits 0 (addRankScore K vectorHits 0 []) := by
        rw [← hsnd]
        exact hp
      exact lookup_eq_of_mem _ _ _ hnk hpair
    have := hscore fh.item.id
    rw [optScore, hlk] at this
    simpa using this
  have hnone_iff : ∀ id,
      (addRankScore K ftsHits 0 (addRankScore K vectorHits 0 [])).lookup id = none ↔
        ((∀ h ∈ vectorHits, h.item.id ≠ id) ∧ ∀ h ∈ ftsHits, h.item.id ≠ id) := by
    intro id
    rw [lookup_addRankScore_none_iff, lookup_addRankScore_none_iff]
    have h0 : (List.lookup id ([] : List (String × Hit))) = none := rfl
    simp [h0]
  have hcov : ∀ id, (∃ fh ∈ rrfFuse vectorHits ftsHits K, fh.item.id = id) ↔
      ((∃ h ∈ vectorHits, h.item.id = id) ∨ (∃ h ∈ ftsHits, h.item.id = id)) := by
    intro id
    constructor
    · rintro ⟨fh, hfh, rfl⟩
      by_contra hno
      push_neg at hno
      have hnone := (hnone_iff fh.item.id).mpr
        ⟨fun h hm he => hno.1 h hm he, fun h hm he => hno.2 h hm he⟩
      rw [hfuse] at hfh
      obtain ⟨p, hp, hsnd⟩ :=
        List.mem_map.mp ((mem_sortByScoreDesc Hit.score _ fh).mp hfh)
      have hkey : p.1 = fh.item.id := by rw [← hkeyed p hp, hsnd]
      have hpair : (fh.item.id, fh) ∈
          addRankScore K ftsHits 0 (addRankScore K vectorHits 0 []) := by
        rw [← hkey, ← hsnd]
        exact hp
      rw [lookup_eq_of_mem _ _ _ hnk hpair] at hnone
      cases hnone
    · intro hor
      cases hlk : (addRankScore K ftsHits 0 (addRankScore K vectorHits 0 [])).lookup id with
      | none =>
        obtain ⟨hv1, hf1⟩ := (hnone_iff id).mp hlk
        rcases hor with ⟨h, hm, he⟩ | ⟨h, hm, he⟩
        · exact absurd he (hv1 h hm)
        · exact absurd he (hf1 h hm)
      | some b =>
        refine ⟨b, ?_, ?_⟩
        · rw [hfuse, mem_sortByScoreDesc]
          exact List.mem_map.mpr ⟨(id, b), lookup_mem _ _ _ hlk, rfl⟩
        · exact hkeyed (id, b) (lookup_mem _ _ _ hlk)
  have hsorted : ScoreSortedDesc Hit.score (rrfFuse vectorHits ftsHits K) := by
    rw [hfuse]
    exact sorted_sortByScoreDesc _ _
  refine ⟨hmem_score, hcov, hsorted, rfl, ?_, ?_, ?_⟩
  · exact List.length_take_le topK (rrfFuse vectorHits ftsHits K)
  · exact List.Pairwise.sublist (List.take_sublist topK _) hsorted
  · intro fh hfh
    exact hmem_score fh ((List.take_sublist topK _).subset hfh)

/-- Vector-list hit of the C1 witness (rank 1 in the vector list). -/
def wvA : Hit := ⟨⟨"A", "s", 0, "a", [1]⟩, 2⟩

/-- Vector-list hit of the C1 witness (rank 2 in the vector list, rank 1 in
the keyword list). -/
def wvB : Hit := ⟨⟨"B", "s", 0, "b", [1]⟩, 1⟩

/-- Keyword-list hit of the C1 witness (same record as `wvB`). -/
def wfB : Hit := ⟨⟨"B", "s", 0, "b", [1]⟩, 5⟩

theorem hybridSearch_rrf_correct_witness :
    (ScoreSortedDesc Hit.score [wvA, wvB] ∧ ScoreSortedDesc Hit.score [wfB]
      ∧ ([wvA, wvB].map (fun h => h.item.id)).Nodup
      ∧ ([wfB].map (fun h => h.item.id)).Nodup)
    ∧ (∀ fh ∈ rrfFuse [wvA, wvB] [wfB] 60,
        fh.score = rrfContrib 60 [wvA, wvB] fh.item.id + rrfContrib 60 [wfB] fh.item.id)
    ∧ ScoreSortedDesc Hit.score (rrfFuse [wvA, wvB] [wfB] 60)
    ∧ (hybridSearch [wvA, wvB] [wfB] 8 60).length ≤ 8 := by
  have h1 : ScoreSortedDesc Hit.score [wvA, wvB] := by
    constructor
    · intro b hb
      rcases List.mem_singleton.mp hb with rfl
      norm_num [wvA, wvB]
    · exact List.pairwise_singleton _ _
  have h2 : ScoreSortedDesc Hit.score [wfB] := List.pairwise_singleton _ _
  have h3 : ([wvA, wvB].map (fun h => h.item.id)).Nodup := by decide
  have h4 : ([wfB].map (fun h => h.item.id)).Nodup := by decide
  obtain ⟨c1, _, c3, _, c5, c6, _⟩ :=
    hybridSearch_rrf_correct [wvA, wvB] [wfB] 8 60 h1 h2 h3 h4
  exact ⟨⟨h1, h2, h3, h4⟩, c1, c3, c5⟩

/-! ## Multi-variant merge (`src/src/vectorStore.js`, `hybridSearchMulti`) -/

/-- One step of the cross-variant merge:
`const prev = best.get(h.item.id); if (!prev || h.score > prev.score) best.set(h.item.id, h);`
(`set` on a known key replaces the value in place, on a fresh key appends). -/
def bestUpsert (h : Hit) (best : List (String × Hit)) : List (String × Hit) :=
  match best.lookup h.item.id with
  | none => best ++ [(h.item.id, h)]
  | some prev =>
    if h.score > prev.score
    then best.map (fun p => if p.1 == h.item.id then (p.1, h) else p)
    else best

/-- The inner `for (const h of hits)` loop of `hybridSearchMulti`. -/
def mergeBestHits (best : List (String × Hit)) : List Hit → List (String × Hit)
  | [] => best
  | h :: rest => mergeBestHits (bestUpsert h best) rest

/-- The outer per-variant loop, folding the per-variant hit lists into the
`best` map. -/
def mergeBestAll (best : List (String × Hit)) : List (List Hit) → List (String × Hit)
  | [] => best
  | hs :: rest => mergeBestAll (mergeBestHits best hs) rest

/-- The per-variant `hybridSearch` results: one call per
`(variantEmbeds[i], variantTexts[i])` pair (the caller passes aligned
lists), with the backend searches as external collaborators. -/
def perVariantResults (vsearch : Vec → List Hit) (fsearch : String → List Hit)
    (variantEmbeds : List Vec) (variantTexts : List String)
    (perQueryTopK : Nat) (K : ℚ) : List (List Hit) :=
  (variantEmbeds.zip variantTexts).map
    (fun p => hybridSearch (vsearch p.1) (fsearch p.2) perQueryTopK K)

/-- `hybridSearchMulti(variantEmbeds, variantTexts, { perQueryTopK, finalTopK, rrfK })`:
hybrid search per variant, merge by record id keeping the best fused score,
sort descending, truncate to `finalTopK`. -/
def hybridSearchMulti (vsearch : Vec → List Hit) (fsearch : String → List Hit)
    (variantEmbeds : List Vec) (variantTexts : List String)
    (perQueryTopK finalTopK : Nat) (K : ℚ) : List Hit :=
  (sortByScoreDesc Hit.score
    ((mergeBestAll []
        (perVariantResults vsearch fsearch variantEmbeds variantTexts perQueryTopK K)).map
      Prod.snd)).take finalTopK

theorem keys_map_update (key : String) (g : Hit → Hit) (l : List (String × Hit)) :
    (l.map (fun p => if p.1 == key then (p.1, g p.2) else p)).map Prod.fst
      = l.map Prod.fst := by
  rw [List.map_map]
  have hfun : (Prod.fst ∘ fun p : String × Hit =>
      if p.1 == key then (p.1, g p.2) else p) = Prod.fst := by
    funext p
    by_cases hp : (p.1 == key) = true <;> simp [Function.comp, hp]
  rw [hfun]

theorem keys_map_replace (key : String) (v : Hit) (l : List (String × Hit)) :
    (l.map (fun p => if p.1 == key then (p.1, v) else p)).map Prod.fst
      = l.map Prod.fst := by
  simpa using keys_map_update key (fun _ => v) l

theorem lookup_map_replace (key : String) (v : Hit) (l : List (String × Hit)) :
    (l.map (fun p => if p.1 == key then (p.1, v) else p)).lookup key
      = (l.lookup key).map (fun _ => v) := by
  simpa using lookup_map_update key (fun _ => v) l

theorem lookup_map_replace_ne (key a : String) (v : Hit) (l : List (String × Hit))
    (hne : a ≠ key) :
    (l.map (fun p => if p.1 == key then (p.1, v) else p)).lookup a = l.lookup a := by
  simpa using lookup_map_update_ne key a (fun _ => v) l hne

/-- The merge-loop invariant: the `best` map is keyed by item id with no
duplicate keys, holds only hits already seen, has an entry for every seen
id, and each entry's score dominates every seen hit with that id. -/
def BestInv (seen : List Hit) (best : List (String × Hit)) : Prop :=
  Keyed best ∧ (best.map Prod.fst).Nodup
  ∧ (∀ p ∈ best, p.2 ∈ seen)
  ∧ (∀ h ∈ seen, ∃ b, best.lookup h.item.id = some b)
  ∧ (∀ p ∈ best, ∀ h ∈ seen, h.item.id = p.1 → h.score ≤ p.2.score)

theorem bestInv_nil : BestInv [] [] := by
  refine ⟨?_, ?_, ?_, ?_, ?_⟩ <;> simp [Keyed]

theorem bestInv_upsert (h : Hit) (seen : List Hit) (best : List (String × Hit))
    (inv : BestInv seen best) : BestInv (seen ++ [h]) (bestUpsert h best) := by
  obtain ⟨ikeyed, inodup, isound, icomplete, imax⟩ := inv
  cases hl : best.lookup h.item.id with
  | none =>
    have hbu : bestUpsert h best = best ++ [(h.item.id, h)] := by
      simp only [bestUpsert, hl]
    rw [hbu]
    refine ⟨?_, ?_, ?_, ?_, ?_⟩
    · intro p hp
      rcases List.mem_append.mp hp with hp1 | hp1
      · exact ikeyed p hp1
      · rcases List.mem_singleton.mp hp1 with rfl; rfl
    · rw [List.map_append]
      rw [List.nodup_append]
      refine ⟨inodup, List.nodup_singleton _, ?_⟩
      intro a ha hb
      rcases List.mem_singleton.mp (by simpa using hb) with rfl
      rcases List.mem_map.mp ha with ⟨p, hp, hpe⟩
      exact (lookup_none_iff _ _).mp hl p hp hpe
    · intro p hp
      rcases List.mem_append.mp hp with hp1 | hp1
      · exact List.mem_append_left _ (isound p hp1)
      · rcases List.mem_singleton.mp hp1 with rfl
        exact List.mem_append_right _ (List.mem_singleton_self h)
    · intro h' hm
      rcases List.mem_append.mp hm with hm1 | hm1
      · obtain ⟨b, hb⟩ := icomplete h' hm1
        exact ⟨b, lookup_append_some _ _ _ _ hb⟩
      · rcases List.mem_singleton.mp hm1 with heq
        refine ⟨h, ?_⟩
        rw [heq, lookup_append_of_none _ _ _ hl, lookup_cons]
        simp
    · intro p hp h' hm' hid
      rcases List.mem_append.mp hp with hp1 | hp1
      · rcases List.mem_append.mp hm' with hm1 | hm1
        · exact imax p hp1 h' hm1 hid
        · rcases List.mem_singleton.mp hm1 with rfl
          exact absurd hid ((lookup_none_iff _ _).mp hl p hp1).symm
      · rcases List.mem_singleton.mp hp1 with rfl
        rcases List.mem_append.mp hm' with hm1 | hm1
        · obtain ⟨b, hb⟩ := icomplete h' hm1
          rw [show h'.item.id = h.item.id from hid] at hb
          rw [hl] at hb
          cases hb
        · rcases List.mem_singleton.mp hm1 with rfl
          exact le_refl _
  | some prev =>
    have hprevmem : (h.item.id, prev) ∈ best := lookup_mem _ _ _ hl
    by_cases hgt : h.score > prev.score
    · have hbu : bestUpsert h best
          = best.map (fun p => if p.1 == h.item.id then (p.1, h) else p) := by
        simp only [bestUpsert, hl]
        rw [if_pos hgt]
      rw [hbu]
      refine ⟨?_, ?_, ?_, ?_, ?_⟩
      · intro p hp
        rcases List.mem_map.mp hp with ⟨q, hq, rfl⟩
        by_cases hqk : (q.1 == h.item.id) = true
        · rw [if_pos hqk]
          simpa using (beq_iff_eq.mp hqk).symm
        · rw [if_neg hqk]
          exact ikeyed q hq
      · rw [keys_map_replace]
        exact inodup
      · intro p hp
        rcases List.mem_map.mp hp with ⟨q, hq, rfl⟩
        by_cases hqk : (q.1 == h.item.id) = true
        · rw [if_pos hqk]
          exact List.mem_append_right _ (List.mem_singleton_self h)
        · rw [if_neg hqk]
          exact List.mem_append_left _ (isound q hq)
      · intro h' hm
        rcases List.mem_append.mp hm with hm1 | hm1
        · obtain ⟨b, hb⟩ := icomplete h' hm1
          by_cases hbk : h'.item.id = h.item.id
          · refine ⟨h, ?_⟩
            rw [hbk, lookup_map_replace, hl]
            rfl
          · exact ⟨b, by rw [lookup_map_replace_ne _ _ _ _ hbk]; exact hb⟩
        · rcases List.mem_singleton.mp hm1 with heq
          refine ⟨h, ?_⟩
          rw [heq, lookup_map_replace, hl]
          rfl
      · intro p hp h' hm' hid
        rcases List.mem_map.mp hp with ⟨q, hq, rfl⟩
        by_cases hqk : (q.1 == h.item.id) = true
        · rw [if_pos hqk] at hid ⊢
          rcases List.mem_append.mp hm' with hm1 | hm1
          · have hq1 : h'.item.id = h.item.id := by
              simpa [beq_iff_eq.mp hqk] using hid
            have := imax _ hprevmem h' hm1 hq1
            simpa using le_of_lt (lt_of_le_of_lt this hgt)
          · rcases List.mem_singleton.mp hm1 with rfl
            simp
        · rw [if_neg hqk] at hid ⊢
          rcases List.mem_append.mp hm' with hm1 | hm1
          · exact imax q hq h' hm1 hid
          · rcases List.mem_singleton.mp hm1 with rfl
            exact absurd (beq_iff_eq.mpr (hid.symm.trans rfl)).symm
              (by simpa using hqk)
    · have hbu : bestUpsert h best = best := by
        simp only [bestUpsert, hl]
        rw [if_neg hgt]
      rw [hbu]
      refine ⟨ikeyed, inodup, ?_, ?_, ?_⟩
      · intro p hp
        exact List.mem_append_left _ (isound p hp)
      · intro h' hm
        rcases List.mem_append.mp hm with hm1 | hm1
        · obtain ⟨b, hb⟩ := icomplete h' hm1
          exact ⟨b, hb⟩
        · rcases List.mem_singleton.mp hm1 with rfl
          exact ⟨prev, hl⟩
      · intro p hp h' hm' hid
        rcases List.mem_append.mp hm' with hm1 | hm1
        · exact imax p hp h' hm1 hid
        · rcases List.mem_singleton.mp hm1 with rfl
          have hpl : best.lookup p.1 = some p.2 := lookup_eq_of_mem _ _ _ inodup hp
          rw [← hid] at hpl
          rw [hl] at hpl
          obtain rfl : prev = p.2 := by simpa using hpl
          exact le_of_not_gt hgt

theorem bestInv_mergeBestHits (hits seen : List Hit) (best : List (String × Hit))
    (inv : BestInv seen best) : BestInv (seen ++ hits) (mergeBestHits best hits) := by
  induction hits generalizing seen best with
  | nil => simpa using inv
  | cons h rest ih =>
    rw [mergeBestHits]
    have := ih (seen ++ [h]) (bestUpsert h best) (bestInv_upsert h seen best inv)
    simpa [List.append_assoc] using this

theorem bestInv_mergeBestAll (ls : List (List Hit)) (seen : List Hit)
    (best : List (String × Hit)) (inv : BestInv seen best) :
    BestInv (seen ++ ls.flatten) (mergeBestAll best ls) := by
  induction ls generalizing seen best with
  | nil => simpa using inv
  | cons hs rest ih =>
    rw [mergeBestAll]
    have := ih (seen ++ hs) _ (bestInv_mergeBestHits hs seen best inv)
    simpa [List.append_assoc] using this

/-- The record of the C2 worked example. -/
def mergeX : Item := ⟨"X", "s", 0, "x", [1]⟩

/-- C2 — Multi-variant merge is max, not sum: every merged hit is one of the
per-variant hybrid results and its score dominates every per-variant result
with the same record id (i.e. it carries the maximum fused score seen across
variants); every retrieved id survives the (pre-truncation) merge; the
output is sorted descending and truncated to `finalTopK`; and on the worked
example — the same record scoring 1/2 in one variant and 3/10 in another —
the merged map holds it with score 1/2, not 4/5. -/
theorem hybridSearchMulti_max_merge (vsearch : Vec → List Hit)
    (fsearch : String → List Hit) (variantEmbeds : List Vec)
    (variantTexts : List String) (perQueryTopK finalTopK : Nat) (K : ℚ) :
    (∀ h ∈ hybridSearchMulti vsearch fsearch variantEmbeds variantTexts
        perQueryTopK finalTopK K,
      h ∈ (perVariantResults vsearch fsearch variantEmbeds variantTexts
            perQueryTopK K).flatten
      ∧ ∀ h' ∈ (perVariantResults vsearch fsearch variantEmbeds variantTexts
            perQueryTopK K).flatten,
          h'.item.id = h.item.id → h'.score ≤ h.score)
    ∧ (∀ h' ∈ (perVariantResults vsearch fsearch variantEmbeds variantTexts
          perQueryTopK K).flatten,
        ∃ h ∈ (mergeBestAll [] (perVariantResults vsearch fsearch variantEmbeds
              variantTexts perQueryTopK K)).map Prod.snd,
          h.item.id = h'.item.id)
    ∧ ScoreSortedDesc Hit.score (hybridSearchMulti vsearch fsearch variantEmbeds
        variantTexts perQueryTopK finalTopK K)
    ∧ (hybridSearchMulti vsearch fsearch variantEmbeds variantTexts
        perQueryTopK finalTopK K).length ≤ finalTopK
    ∧ (mergeBestAll [] [[⟨mergeX, 1/2⟩], [⟨mergeX, 3/10⟩]]).map Prod.snd
        = [⟨mergeX, 1/2⟩] := by
  have inv : BestInv
      (perVariantResults vsearch fsearch variantEmbeds variantTexts
        perQueryTopK K).flatten
      (mergeBestAll []
        (perVariantResults vsearch fsearch variantEmbeds variantTexts
          perQueryTopK K)) := by
    simpa using bestInv_mergeBestAll
      (perVariantResults vsearch fsearch variantEmbeds variantTexts perQueryTopK K)
      [] [] bestInv_nil
  obtain ⟨ikeyed, inodup, isound, icomplete, imax⟩ := inv
  refine ⟨?_, ?_, ?_, ?_, ?_⟩
  · intro h hmem
    have hmem2 : h ∈ (mergeBestAll []
        (perVariantResults vsearch fsearch variantEmbeds variantTexts
          perQueryTopK K)).map Prod.snd := by
      have := (List.take_sublist finalTopK _).subset hmem
      exact (mem_sortByScoreDesc Hit.score _ h).mp this
    obtain ⟨p, hp, hsnd⟩ := List.mem_map.mp hmem2
    refine ⟨by rw [← hsnd]; exact isound p hp, ?_⟩
    intro h' hm' hid
    have hkey : p.1 = h.item.id := by rw [← ikeyed p hp, hsnd]
    have := imax p hp h' hm' (by rw [hid, ← hkey])
    rw [hsnd] at this
    exact this
  · intro h' hm'
    obtain ⟨b, hb⟩ := icomplete h' hm'
    refine ⟨b, List.mem_map.mpr ⟨(h'.item.id, b), lookup_mem _ _ _ hb, rfl⟩, ?_⟩
    exact ikeyed (h'.item.id, b) (lookup_mem _ _ _ hb)
  · exact List.Pairwise.sublist (List.take_sublist finalTopK _)
      (sorted_sortByScoreDesc _ _)
  · exact List.length_take_le _ _
  · have hlt : ¬((2 : ℚ)⁻¹ < 3 / 10) := by norm_num
    simp [mergeBestAll, mergeBestHits, bestUpsert, List.lookup, mergeX, hlt]

theorem hybridSearchMulti_max_merge_witness :
    (mergeBestAll [] [[⟨mergeX, 1/2⟩], [⟨mergeX, 3/10⟩]]).map Prod.snd
      = [⟨mergeX, 1/2⟩]
    ∧ (hybridSearchMulti (fun _ => []) (fun _ => []) [] [] 8 25 60).length ≤ 25 :=
  ⟨(hybridSearchMulti_max_merge (fun _ => []) (fun _ => []) [] [] 8 25 60).2.2.2.2,
   (hybridSearchMulti_max_merge (fun _ => []) (fun _ => []) [] [] 8 25 60).2.2.2.1⟩

/-! ## The ask pipeline (`src/unnamed/part_002`, `initRagEngine`'s `ask`).

Network stages are parameters: `augmentOutcome` is the joint outcome of the
multi-query + HyDE try-block, `embedFn` the outcome of `embedTextsCached` on
the variant texts, `searchFn` the store's `hybridSearchMulti` call (already
at the expanded topK settings), `genFn` the outcome of
`answerWithContextCached` on the context block.  The cache-persistence step
is fire-and-forget and does not affect the returned value. -/

/-- A JS error as `classifyOpenAIError` reads it.  The source reads
`err.code || err.error?.code` and `err.message || err.error?.message`; the
model's fields hold those resolved values.  `statusCode` is the HTTP status
the engine attaches to the errors it throws itself. -/
structure JsError where
  status : Option Nat := none
  code : Option String := none
  msg : String := ""
  statusCode : Option Nat := none
deriving DecidableEq

/-- The classification record `{ status, code, isQuota, isRateLimit, isTransient }`
(the two echoed fields are the inputs). -/
structure ErrClass where
  isQuota : Bool
  isRateLimit : Bool
  isTransient : Bool
deriving DecidableEq

/-- `classifyOpenAIError(err)`. -/
def classifyOpenAIError (e : JsError) : ErrClass :=
  let m := jsToLower e.msg
  { isQuota := e.status == some 429 &&
      (e.code == some "insufficient_quota" || jsIncludes m "quota"),
    isRateLimit := e.status == some 429 &&
      (e.code == some "rate_limit_exceeded" || jsIncludes m "rate limit"
        || jsIncludes m "too many requests"),
    isTransient :=
      (match e.status with
       | some s => decide (500 ≤ s ∧ s ≤ 599)
       | none => false)
      || jsIncludes m "timeout" || jsIncludes m "temporarily" }

/-- JS `String.prototype.startsWith`, modelled per character. -/
def jsStartsWith (s p : String) : Bool := p.toList.isPrefixOf s.toList

/-- The `filters` option `{ sources?: string[], sourcePrefix?: string }`
(`sourcePfx` models the `sourcePrefix` field). -/
structure Filters where
  sources : Option (List String) := none
  sourcePfx : Option String := none
deriving DecidableEq

/-- `applySourceFilters(hits, filters)`: no filters keeps everything;
otherwise a hit survives when its source is in the allow-list (if one is
given) and starts with `sourcePrefix` (if a non-empty one is given — the JS
`if (prefix && ...)` skips the check for the falsy empty string). -/
def applySourceFilters (hits : List Hit) (filters : Option Filters) : List Hit :=
  match filters with
  | none => hits
  | some fil =>
    hits.filter (fun h =>
      (match fil.sources with
       | some allow => allow.contains h.item.source
       | none => true)
      && (match fil.sourcePfx with
          | some p => p == "" || jsStartsWith h.item.source p
          | none => true))

/-- `const variantTexts = [question, ...rewrites, hyde].filter(Boolean);` -/
def variantTextsOf (question : String) (rewrites : List String) (hyde : String) :
    List String :=
  ((question :: rewrites) ++ [hyde]).filter (fun t => !(t == ""))

/-- Stage 1 of `ask`: the try/catch around the augmentation calls.  A
quota-classified failure degrades to empty rewrites and empty hyde; any
other failure propagates. -/
def augmentStage (outcome : Except JsError (List String × String)) :
    Except JsError (List String × String) :=
  match outcome with
  | .ok p => .ok p
  | .error e => if (classifyOpenAIError e).isQuota then .ok ([], "") else .error e

/-- `buildContextBlock(selectedHits)`: labeled blocks joined by the fixed
delimiter. -/
def buildContextBlock (selectedHits : List Hit) : String :=
  String.intercalate "\n\n---\n\n"
    (selectedHits.map (fun h =>
      "[source: " ++ h.item.source ++ "#" ++ toString h.item.chunkIndex ++ "]\n"
        ++ h.item.content))

/-- The `debug` payload's computed counters (`durationMs` and the echoed
request options are omitted from the model). -/
structure DebugInfo where
  retrievedCandidates : Nat
  afterFiltering : Nat
  contextChunks : Option Nat
deriving DecidableEq

/-- The value `ask` resolves with. -/
structure AskResult where
  answer : String
  sources : List String
  debug : Option DebugInfo
deriving DecidableEq

/-- The fixed short-circuit answer. -/
def noMatchAnswer : String :=
  "I couldn't find relevant passages that match your filters/keywords in the provided documents."

/-- The error thrown on an embedding-stage quota failure (`e.statusCode = 503`). -/
def embedQuotaError : JsError :=
  { msg := "No API quota for embeddings. Add credits or use local embeddings.",
    statusCode := some 503 }

/-- The error thrown on an answering-stage quota failure (`e.statusCode = 503`). -/
def answerQuotaError : JsError :=
  { msg := "No API quota for answering. Add credits or use a local LLM.",
    statusCode := some 503 }

/-- The `ask(question, options)` pipeline (defaults in the source:
`mustIncludeMode = "all"`, `contextK = CONTEXT_K`, `debugFlag = RAG_DEBUG`;
`pickDiverse` runs at its defaults `λ = 0.8`, `minKeep = 0.1`). -/
def askModel (question : String)
    (augmentOutcome : Except JsError (List String × String))
    (embedFn : List String → Except JsError (List Vec))
    (searchFn : List Vec → List String → List Hit)
    (genFn : String → Except JsError String)
    (filters : Option Filters) (mustInclude : Option (List String))
    (mustIncludeMode : String) (contextK : Nat) (debugFlag : Bool) :
    Except JsError AskResult :=
  match augmentStage augmentOutcome with
  | .error e => .error e
  | .ok (rewrites, hyde) =>
    let texts := variantTextsOf question rewrites hyde
    match embedFn texts with
    | .error e =>
      if (classifyOpenAIError e).isQuota then .error embedQuotaError else .error e
    | .ok vecs =>
      let mergedHits := searchFn vecs texts
      let filtered := applyMustInclude (applySourceFilters mergedHits filters)
        mustInclude mustIncludeMode
      if filtered.isEmpty then
        .ok { answer := noMatchAnswer, sources := [],
              debug := if debugFlag then some ⟨mergedHits.length, 0, none⟩ else none }
      else
        let selected := pickDiverse filtered contextK (4/5) (1/10)
        let context := buildContextBlock selected
        match genFn context with
        | .error e =>
          if (classifyOpenAIError e).isQuota then .error answerQuotaError else .error e
        | .ok answer =>
          .ok { answer := answer,
                sources := selected.map (fun h => h.item.id),
                debug := if debugFlag
                  then some ⟨mergedHits.length, filtered.length, some selected.length⟩
                  else none }

/-- C6 — Filter short-circuit: whenever source filtering plus must-include
filtering removes every retrieved candidate, `ask` returns the fixed
"no matching passages" answer with an empty sources list as a normal
(non-error, `.ok`) result, and the result is the same for every
answer-generation function — the generation stage is never consulted. -/
theorem ask_filter_short_circuit (question : String)
    (augmentOutcome : Except JsError (List String × String))
    (embedFn : List String → Except JsError (List Vec))
    (searchFn : List Vec → List String → List Hit)
    (genFn genFn' : String → Except JsError String)
    (filters : Option Filters) (mustInclude : Option (List String))
    (mode : String) (contextK : Nat) (debugFlag : Bool)
    (rewrites : List String) (hyde : String) (vecs : List Vec)
    (haug : augmentStage augmentOutcome = .ok (rewrites, hyde))
    (hembed : embedFn (variantTextsOf question rewrites hyde) = .ok vecs)
    (hempty : applyMustInclude
        (applySourceFilters (searchFn vecs (variantTextsOf question rewrites hyde))
          filters)
        mustInclude mode = []) :
    askModel question augmentOutcome embedFn searchFn genFn filters mustInclude
        mode contextK debugFlag
      = .ok { answer := noMatchAnswer, sources := [],
              debug := if debugFlag then
                  some ⟨(searchFn vecs (variantTextsOf question rewrites hyde)).length,
                    0, none⟩
                else none }
    ∧ askModel question augmentOutcome embedFn searchFn genFn filters mustInclude
        mode contextK debugFlag
      = askModel question augmentOutcome embedFn searchFn genFn' filters mustInclude
        mode contextK debugFlag := by
  have heval : ∀ g : String → Except JsError String,
      askModel question augmentOutcome embedFn searchFn g filters mustInclude
          mode contextK debugFlag
        = .ok { answer := noMatchAnswer, sources := [],
                debug := if debugFlag then
                    some ⟨(searchFn vecs (variantTextsOf question rewrites hyde)).length,
                      0, none⟩
                  else none } := by
    intro g
    unfold askModel
    rw [haug]
    simp only [hembed, hempty, List.isEmpty_nil, if_true]
  exact ⟨heval genFn, (heval genFn).trans (heval genFn').symm⟩

/-- The retrieved candidate of the C6 witness scenario. -/
def c6Hit : Hit := ⟨⟨"data/a.md:aaaa", "data/a.md", 0, "hello world", [1]⟩, 1⟩

theorem ask_filter_short_circuit_witness :
    (augmentStage (.ok ([], "")) = .ok (([] : List String), "")
      ∧ (fun _ : List String => (.ok [[1]] : Except JsError (List Vec)))
          (variantTextsOf "q" [] "") = .ok [[1]]
      ∧ applyMustInclude
          (applySourceFilters
            ((fun _ _ => [c6Hit]) [[1]] (variantTextsOf "q" [] ""))
            (some { sources := some ["nonexistent.md"] }))
          none "all" = [])
    ∧ askModel "q" (.ok ([], "")) (fun _ => .ok [[1]]) (fun _ _ => [c6Hit])
        (fun _ => .ok "unused") (some { sources := some ["nonexistent.md"] })
        none "all" 6 false
      = .ok { answer := noMatchAnswer, sources := [],
              debug := if false then
                  some ⟨((fun _ _ => [c6Hit]) [[1]] (variantTextsOf "q" [] "")).length,
                    0, none⟩
                else none } := by
  refine ⟨⟨rfl, rfl, by decide⟩, ?_⟩
  exact (ask_filter_short_circuit "q" (.ok ([], "")) (fun _ => .ok [[1]])
    (fun _ _ => [c6Hit]) (fun _ => .ok "unused") (fun _ => .ok "other")
    (some { sources := some ["nonexistent.md"] }) none "all" 6 false
    [] "" [[1]] rfl rfl (by decide)).1

/-- C7 — Quota-failure asymmetry: (a) a quota-classified failure of the
augmentation stage makes the request proceed exactly as if it had produced
empty rewrites and empty hyde, instead of failing; (b) a quota-classified
failure of the variant-embedding stage fails the request with the distinct
service-unavailable error (statusCode 503), independently of the retrieval
and generation stages — neither is consulted; and that error carries
`statusCode = some 503`. -/
theorem ask_quota_asymmetry :
    (∀ e : JsError, (classifyOpenAIError e).isQuota = true →
      ∀ (question : String) (embedFn : List String → Except JsError (List Vec))
        (searchFn : List Vec → List String → List Hit)
        (genFn : String → Except JsError String)
        (filters : Option Filters) (mustInclude : Option (List String))
        (mode : String) (contextK : Nat) (debugFlag : Bool),
        askModel question (.error e) embedFn searchFn genFn filters mustInclude
            mode contextK debugFlag
          = askModel question (.ok ([], "")) embedFn searchFn genFn filters
            mustInclude mode contextK debugFlag)
    ∧ (∀ e : JsError, (classifyOpenAIError e).isQuota = true →
      ∀ (question : String)
        (augmentOutcome : Except JsError (List String × String))
        (rewrites : List String) (hyde : String)
        (embedFn : List String → Except JsError (List Vec))
        (searchFn searchFn' : List Vec → List String → List Hit)
        (genFn genFn' : String → Except JsError String)
        (filters : Option Filters) (mustInclude : Option (List String))
        (mode : String) (contextK : Nat) (debugFlag : Bool),
        augmentStage augmentOutcome = .ok (rewrites, hyde) →
        embedFn (variantTextsOf question rewrites hyde) = .error e →
        askModel question augmentOutcome embedFn searchFn genFn filters
            mustInclude mode contextK debugFlag
          = .error embedQuotaError
        ∧ askModel question augmentOutcome embedFn searchFn genFn filters
            mustInclude mode contextK debugFlag
          = askModel question augmentOutcome embedFn searchFn' genFn' filters
            mustInclude mode contextK debugFlag)
    ∧ embedQuotaError.statusCode = some 503 := by
  refine ⟨?_, ?_, rfl⟩
  · intro e hq question embedFn searchFn genFn filters mustInclude mode contextK debugFlag
    have haug : augmentStage (.error e) = .ok (([] : List String), "") := by
      simp only [augmentStage]
      rw [if_pos hq]
    unfold askModel
    rw [haug]
    rfl
  · intro e hq question augmentOutcome rewrites hyde embedFn searchFn searchFn'
      genFn genFn' filters mustInclude mode contextK debugFlag haug hembed
    have heval : ∀ (s : List Vec → List String → List Hit)
        (g : String → Except JsError String),
        askModel question augmentOutcome embedFn s g filters mustInclude mode
          contextK debugFlag = .error embedQuotaError := by
      intro s g
      unfold askModel
      rw [haug]
      simp only [hembed, hq, if_true]
    exact ⟨heval searchFn genFn, (heval searchFn genFn).trans
      (heval searchFn' genFn').symm⟩

/-- The quota error of the C7 witness. -/
def quotaErr : JsError :=
  { status := some 429, code := some "insufficient_quota",
    msg := "You exceeded your current quota." }

theorem ask_quota_asymmetry_witness :
    ((classifyOpenAIError quotaErr).isQuota = true)
    ∧ askModel "q" (.error quotaErr) (fun _ => .ok [[1]]) (fun _ _ => [])
        (fun _ => .ok "a") none none "all" 6 false
      = askModel "q" (.ok ([], "")) (fun _ => .ok [[1]]) (fun _ _ => [])
        (fun _ => .ok "a") none none "all" 6 false
    ∧ askModel "q" (.ok ([], "")) (fun _ => .error quotaErr) (fun _ _ => [])
        (fun _ => .ok "a") none none "all" 6 false
      = .error embedQuotaError := by
  refine ⟨by decide, ?_, ?_⟩
  · exact (ask_quota_asymmetry).1 quotaErr (by decide) "q" (fun _ => .ok [[1]])
      (fun _ _ => []) (fun _ => .ok "a") none none "all" 6 false
  · exact ((ask_quota_asymmetry).2.1 quotaErr (by decide) "q" (.ok ([], "")) [] ""
      (fun _ => .error quotaErr) (fun _ _ => []) (fun _ _ => []) (fun _ => .ok "a")
      (fun _ => .ok "a") none none "all" 6 false rfl rfl).1

/-- The record of the C4 failing input: the chunk of "data/policies.md" at
`chunkIndex 2`, stored under its content-addressed id — `makeChunkId` of the
source and the chunk's 64-hex content hash, i.e.
`"data/policies.md:" ++` the hash's first 20 characters (the indexer builds
ids this way from `computeChunkMeta`). -/
def c4Item : Item :=
  ⟨makeChunkId "data/policies.md"
      "aaaaaaaaaaaaaaaaaaaabbbbbbbbbbbbbbbbbbbbcccccccccccccccccccccccc",
   "data/policies.md", 2, "refund policy applies", [1]⟩

/-- The C4 failing input as a retrieved hit. -/
def c4Hit : Hit := ⟨c4Item, 1⟩

set_option maxRecDepth 4000 in
/-- C4 (code bug) — on a successful request that is not short-circuited, the
returned `sources` field holds the content-addressed record ids
(`source + ":" + hash-prefix`, here `"data/policies.md:aaaaaaaaaaaaaaaaaaaa"`),
not the citation ids (`source + "#" + chunkIndex`, here
`"data/policies.md#2"`) that the claim, the README's response example, and
the engine's own doc comment (`sources: ["data/file#idx", ...]`) describe.
`debug` is indeed `none` with the flag off. -/
theorem ask_sources_are_record_ids :
    askModel "what is the refund policy" (.ok ([], "")) (fun _ => .ok [[1]])
        (fun _ _ => [c4Hit]) (fun _ => .ok "answer") none none "all" 6 false
      = .ok { answer := "answer",
              sources := ["data/policies.md:aaaaaaaaaaaaaaaaaaaa"],
              debug := none }
    ∧ makeCitationId "data/policies.md" 2 = "data/policies.md#2"
    ∧ (["data/policies.md:aaaaaaaaaaaaaaaaaaaa"] : List String)
        ≠ [makeCitationId "data/policies.md" 2] := by
  have hpick : pickDiverse [c4Hit] 6 (4/5) (1/10) = [c4Hit] := by
    rw [pickDiverse, pickDiverseLoop]
    norm_num
    rw [pickDiverseLoop]
  refine ⟨?_, by decide, by decide⟩
  unfold askModel
  simp only [augmentStage, applySourceFilters, applyMustInclude, hpick,
    List.isEmpty_cons, Bool.false_eq_true, if_false, List.map_cons, List.map_nil]
  exact congrArg Except.ok (by decide)

end RagNode
